import Mathlib

/-!
Verification of the reflection-driven wire-format coder of a Protocol Buffers
runtime, against its natural-language specification.

The binary coder functions (size, append, consume; the NoZero and Slice
variants; the packed-slice variants) are translated from the code-generation
template in src/unnamed/part_000 (implCodecTemplate).  The wire primitives
the template calls (varint, fixed32, fixed64, length-delimited bytes) are not
part of the given sources, so they are modelled from spec section 4.1, which
fixes their formats exactly.  Bytes are modelled as natural numbers below 256
in lists; machine integers as natural-number bit patterns with explicit
bounds.
-/

namespace Proto

/-! ## Wire primitives (modelled from the spec, section 4.1) -/

/-- Modelled from the spec: varint append, 7 bits per byte, least significant
group first, most-significant-bit continuation (section 4.1). -/
def appendVarint (v : Nat) : List Nat :=
  if h : v < 128 then [v]
  else (v % 128 + 128) :: appendVarint (v / 128)
termination_by v
decreasing_by
  exact Nat.div_lt_self (by omega) (by norm_num)

/-- Modelled from the spec: size contract, the number of bytes appendVarint
writes (section 4.1). -/
def sizeVarint (v : Nat) : Nat :=
  (appendVarint v).length

/-- Modelled from the spec: varint consume; at most 10 bytes, a longer run is
an overflow error; the accumulated value wraps at 64 bits (section 4.1).
Returns the value and the number of bytes consumed, or none on error. -/
def consumeVarintAux : List Nat → Nat → Option (Nat × Nat)
  | _, 0 => none
  | [], _ + 1 => none
  | x :: rest, limit + 1 =>
    if x < 128 then some (x, 1)
    else
      match consumeVarintAux rest limit with
      | none => none
      | some (v, n) => some (x % 128 + v * 128, n + 1)

def consumeVarint (b : List Nat) : Option (Nat × Nat) :=
  match consumeVarintAux b 10 with
  | none => none
  | some (v, n) => some (v % 2 ^ 64, n)

/-- Modelled from the spec: fixed32 append, little-endian (section 4.1). -/
def appendFixed32 (v : Nat) : List Nat :=
  [v % 256, v / 256 % 256, v / 256 ^ 2 % 256, v / 256 ^ 3 % 256]

/-- Modelled from the spec: fixed32 consume; reading past the end of the
buffer is a truncation error (section 4.1). -/
def consumeFixed32 : List Nat → Option (Nat × Nat)
  | b0 :: b1 :: b2 :: b3 :: _ => some (b0 + b1 * 256 + b2 * 256 ^ 2 + b3 * 256 ^ 3, 4)
  | _ => none

/-- Modelled from the spec: fixed64 append, little-endian (section 4.1). -/
def appendFixed64 (v : Nat) : List Nat :=
  [v % 256, v / 256 % 256, v / 256 ^ 2 % 256, v / 256 ^ 3 % 256,
   v / 256 ^ 4 % 256, v / 256 ^ 5 % 256, v / 256 ^ 6 % 256, v / 256 ^ 7 % 256]

/-- Modelled from the spec: fixed64 consume (section 4.1). -/
def consumeFixed64 : List Nat → Option (Nat × Nat)
  | b0 :: b1 :: b2 :: b3 :: b4 :: b5 :: b6 :: b7 :: _ =>
    some (b0 + b1 * 256 + b2 * 256 ^ 2 + b3 * 256 ^ 3 + b4 * 256 ^ 4 +
          b5 * 256 ^ 5 + b6 * 256 ^ 6 + b7 * 256 ^ 7, 8)
  | _ => none

/-- Modelled from the spec: length-delimited consume, a varint length then
that many raw bytes; a length larger than the remaining buffer is a
truncation error (section 4.1).  Returns the contents and the total number of
bytes consumed. -/
def consumeBytes (b : List Nat) : Option (List Nat × Nat) :=
  match consumeVarint b with
  | none => none
  | some (m, n) =>
    if m ≤ (b.drop n).length then some ((b.drop n).take m, n + m) else none

/-- Modelled from the spec: size of a length-delimited record body of n
bytes (section 4.1). -/
def sizeBytesLen (n : Nat) : Nat :=
  sizeVarint n + n

/-! ## Round-trip facts about the wire primitives -/

theorem appendVarint_small {v : Nat} (h : v < 128) : appendVarint v = [v] := by
  rw [appendVarint]
  simp [h]

theorem appendVarint_big {v : Nat} (h : ¬ v < 128) :
    appendVarint v = (v % 128 + 128) :: appendVarint (v / 128) := by
  rw [appendVarint]
  simp [h]

theorem appendVarint_ne_nil (v : Nat) : appendVarint v ≠ [] := by
  by_cases h : v < 128
  · rw [appendVarint_small h]; simp
  · rw [appendVarint_big h]; simp

theorem sizeVarint_pos (v : Nat) : 0 < sizeVarint v := by
  have := appendVarint_ne_nil v
  unfold sizeVarint
  cases h : appendVarint v with
  | nil => exact absurd h this
  | cons a l => simp

/-- The varint encoding of a value below 128 to the k-th power fits in k
bytes. -/
theorem appendVarint_length_le (k : Nat) (v : Nat) (hk : 0 < k) (h : v < 128 ^ k) :
    (appendVarint v).length ≤ k := by
  induction k generalizing v with
  | zero => omega
  | succ k ih =>
    by_cases hv : v < 128
    · rw [appendVarint_small hv]; simp
    · rw [appendVarint_big hv]
      have hk0 : 0 < k := by
        by_contra hc
        have : k = 0 := by omega
        subst this
        simp at h
        omega
      have hdiv : v / 128 < 128 ^ k := by
        rw [Nat.div_lt_iff_lt_mul (by norm_num)]
        calc v < 128 ^ (k + 1) := h
        _ = 128 ^ k * 128 := by ring
      have := ih (v / 128) hk0 hdiv
      simp only [List.length_cons]
      omega

theorem consumeVarintAux_append (v : Nat) (rest : List Nat) (limit : Nat)
    (h : (appendVarint v).length ≤ limit) :
    consumeVarintAux (appendVarint v ++ rest) limit
      = some (v, (appendVarint v).length) := by
  induction v using Nat.strong_induction_on generalizing rest limit with
  | _ v ih =>
    by_cases hv : v < 128
    · rw [appendVarint_small hv] at *
      simp only [List.length_cons, List.length_nil] at h
      obtain ⟨l, rfl⟩ : ∃ l, limit = l + 1 := ⟨limit - 1, by omega⟩
      simp [consumeVarintAux, hv]
    · rw [appendVarint_big hv] at *
      simp only [List.length_cons] at h ⊢
      obtain ⟨l, rfl⟩ : ∃ l, limit = l + 1 := ⟨limit - 1, by omega⟩
      have hrec := ih (v / 128) (Nat.div_lt_self (by omega) (by norm_num)) rest l (by omega)
      have hx : ¬ (v % 128 + 128 < 128) := by omega
      simp only [List.cons_append, consumeVarintAux, List.append_eq, hrec, hx, if_false,
        Option.some.injEq, Prod.mk.injEq]
      refine ⟨by omega, trivial⟩

theorem consumeVarint_append (v : Nat) (rest : List Nat) (hv : v < 2 ^ 64) :
    consumeVarint (appendVarint v ++ rest) = some (v, (appendVarint v).length) := by
  have hlen : (appendVarint v).length ≤ 10 := by
    apply appendVarint_length_le 10 v (by norm_num)
    calc v < 2 ^ 64 := hv
    _ ≤ 128 ^ 10 := by norm_num
  unfold consumeVarint
  rw [consumeVarintAux_append v rest 10 hlen]
  have h64 : (2 : Nat) ^ 64 = 18446744073709551616 := by norm_num
  rw [h64] at hv
  simp [Nat.mod_eq_of_lt, hv]

theorem consumeFixed32_append (v : Nat) (rest : List Nat) (hv : v < 2 ^ 32) :
    consumeFixed32 (appendFixed32 v ++ rest) = some (v, 4) := by
  simp only [appendFixed32, List.cons_append, List.nil_append, consumeFixed32,
    Option.some.injEq, Prod.mk.injEq]
  refine ⟨by omega, trivial⟩

theorem consumeFixed64_append (v : Nat) (rest : List Nat) (hv : v < 2 ^ 64) :
    consumeFixed64 (appendFixed64 v ++ rest) = some (v, 8) := by
  simp only [appendFixed64, List.cons_append, List.nil_append, consumeFixed64,
    Option.some.injEq, Prod.mk.injEq]
  refine ⟨by omega, trivial⟩

theorem consumeBytes_append (bs rest : List Nat) (h : bs.length < 2 ^ 64) :
    consumeBytes (appendVarint bs.length ++ (bs ++ rest))
      = some (bs, sizeVarint bs.length + bs.length) := by
  unfold consumeBytes
  rw [consumeVarint_append bs.length (bs ++ rest) h]
  have hdrop : (appendVarint bs.length ++ (bs ++ rest)).drop (appendVarint bs.length).length
      = bs ++ rest := List.drop_left _ _
  simp only [hdrop, List.length_append]
  rw [if_pos (by omega)]
  simp [List.take_left, sizeVarint]

/-! ## Field kinds, wire types and Go values

The scalar field kinds the coder template (src/unnamed/part_000) is
instantiated with, their wire types, and the conversions between Go values
and wire values.  Go values carry their bit pattern: a k-bit integer (signed
or unsigned) is its k-bit two's-complement pattern as a Nat, a bool is 0 or
1, a float or double is its IEEE bit pattern, a string or bytes value is its
byte list.  The conversion formulas (zig-zag, sign extension, truncation)
are modelled from spec sections 3 and 4.1. -/

inductive WType where
  | varint
  | fixed64
  | bytes
  | startGroup
  | endGroup
  | fixed32
deriving DecidableEq, Repr

def WType.code : WType → Nat
  | .varint => 0
  | .fixed64 => 1
  | .bytes => 2
  | .startGroup => 3
  | .endGroup => 4
  | .fixed32 => 5

def wTypeOfCode : Nat → Option WType
  | 0 => some .varint
  | 1 => some .fixed64
  | 2 => some .bytes
  | 3 => some .startGroup
  | 4 => some .endGroup
  | 5 => some .fixed32
  | _ => none

/-- The wire types a repeated scalar may be packed into (template condition
WireType.Packable in src/unnamed/part_000). -/
def WType.packable : WType → Bool
  | .varint => true
  | .fixed32 => true
  | .fixed64 => true
  | _ => false

inductive Kind where
  | bool
  | int32
  | sint32
  | uint32
  | int64
  | sint64
  | uint64
  | sfixed32
  | fixed32
  | float
  | sfixed64
  | fixed64
  | double
  | string
  | bytes
deriving DecidableEq, Repr

/-- The fixed wire type of each kind (spec section 3). -/
def Kind.wireTypeOf : Kind → WType
  | .sfixed32 | .fixed32 | .float => .fixed32
  | .sfixed64 | .fixed64 | .double => .fixed64
  | .string | .bytes => .bytes
  | _ => .varint

def Kind.isBytesKind : Kind → Bool
  | .string | .bytes => true
  | _ => false

/-- The width in which a numeric Go value of this kind lives: 0 or 1 for
bool, a 32-bit pattern, or a 64-bit pattern. -/
def Kind.patBound : Kind → Nat
  | .bool => 2
  | .int32 | .sint32 | .uint32 | .sfixed32 | .fixed32 | .float => 2 ^ 32
  | _ => 2 ^ 64

/-- FromGoType: the wire-level uint64 a Go value of this kind marshals as
(sign extension for int32, zig-zag for sint32 and sint64, identity
elsewhere; spec sections 3 and 4.1). -/
def Kind.fromGoType : Kind → Nat → Nat
  | .int32 => fun p => if p < 2 ^ 31 then p else p + (2 ^ 64 - 2 ^ 32)
  | .sint32 => fun p => if p < 2 ^ 31 then 2 * p else 2 * (2 ^ 32 - p) - 1
  | .sint64 => fun p => if p < 2 ^ 63 then 2 * p else 2 * (2 ^ 64 - p) - 1
  | _ => fun p => p

/-- ToGoType: the Go value of this kind obtained from a decoded wire-level
uint64 (truncation for 32-bit kinds, zig-zag decode for sint kinds, nonzero
test for bool; spec sections 3 and 4.1). -/
def Kind.toGoType : Kind → Nat → Nat
  | .bool => fun u => if u = 0 then 0 else 1
  | .int32 | .uint32 => fun u => u % 2 ^ 32
  | .sint32 => fun u => (if u % 2 = 0 then u / 2 else 2 ^ 64 - u / 2 - 1) % 2 ^ 32
  | .sint64 => fun u => if u % 2 = 0 then u / 2 else 2 ^ 64 - u / 2 - 1
  | _ => fun u => u

/-- A Go value as stored in a message: a numeric bit pattern or a byte
string. -/
inductive GoVal where
  | num (p : Nat)
  | byts (bs : List Nat)
deriving DecidableEq, Repr

/-- A Go value is well typed for a kind when its constructor matches the
kind and a numeric pattern is inside the kind's width (byte strings are
bounded by the wire format's 64-bit length). -/
def wellTypedB (k : Kind) (v : GoVal) : Bool :=
  match v with
  | .num p => !k.isBytesKind && decide (p < k.patBound)
  | .byts bs => k.isBytesKind && decide (bs.length < 2 ^ 64)

/-! ## The coder template functions (src/unnamed/part_000)

Each definition below is the body of the corresponding function of
implCodecTemplate, with the per-kind template conditionals turned into
matches on the kind's wire type. -/

/-- Template Consume: the wire primitive consuming one value of this kind,
followed by ToGoType (consume functions of implCodecTemplate).  The group
wire types never occur for scalar kinds. -/
def consumeGoVal (k : Kind) (b : List Nat) : Option (GoVal × Nat) :=
  match k.wireTypeOf with
  | .varint => (consumeVarint b).map fun vn => (.num (k.toGoType vn.1), vn.2)
  | .fixed32 => (consumeFixed32 b).map fun vn => (.num (k.toGoType vn.1), vn.2)
  | .fixed64 => (consumeFixed64 b).map fun vn => (.num (k.toGoType vn.1), vn.2)
  | .bytes => (consumeBytes b).map fun vn => (.byts vn.1, vn.2)
  | _ => none

/-- Template Append: append one value of this kind to the buffer
(FromGoType then the kind's wire primitive). -/
def appendGoVal (k : Kind) (b : List Nat) (v : GoVal) : List Nat :=
  match v with
  | .num p =>
    match k.wireTypeOf with
    | .fixed32 => b ++ appendFixed32 (k.fromGoType p)
    | .fixed64 => b ++ appendFixed64 (k.fromGoType p)
    | _ => b ++ appendVarint (k.fromGoType p)
  | .byts bs => b ++ appendVarint bs.length ++ bs

/-- Template Size: the encoded size of one value of this kind. -/
def sizeGoVal (k : Kind) (v : GoVal) : Nat :=
  match v with
  | .num p =>
    match k.wireTypeOf with
    | .fixed32 => 4
    | .fixed64 => 8
    | _ => sizeVarint (k.fromGoType p)
  | .byts bs => sizeBytesLen bs.length

/-- Template IsZero (src/unnamed/part_000, define IsZero): for kinds of the
Bytes wire type the length is compared with zero; for Float and Double the
test is equality with zero together with an unset sign bit (on the IEEE bit
pattern, a float compares equal to zero exactly when its pattern is plus or
minus zero, and the sign bit is the pattern's top bit); every other kind
compares against the Go type's zero value. -/
def isZeroVal (k : Kind) (v : GoVal) : Bool :=
  match v with
  | .byts bs => bs.isEmpty
  | .num p =>
    match k with
    | .float => decide (p = 0 ∨ p = 2 ^ 31) && !decide (2 ^ 31 ≤ p)
    | .double => decide (p = 0 ∨ p = 2 ^ 63) && !decide (2 ^ 63 ≤ p)
    | _ => decide (p = 0)

/-- The error surface of the consume functions: errUnknown (the record is
routed to the unknown-field bucket) or a fatal parse error. -/
inductive DecErr where
  | unknown
  | parse
deriving DecidableEq, Repr

/-- Template sizeNoZero: the zero value is not encoded (proto3 no-presence
singular scalars). -/
def sizeNoZero (k : Kind) (v : GoVal) (tagsize : Nat) : Nat :=
  if isZeroVal k v then 0
  else tagsize + sizeGoVal k v

/-- Template appendNoZero: the zero value is not encoded; otherwise the
wiretag varint and the value are appended. -/
def appendNoZero (k : Kind) (b : List Nat) (v : GoVal) (wiretag : Nat) : List Nat :=
  if isZeroVal k v then b
  else appendGoVal k (b ++ appendVarint wiretag) v

/-- Template consume (singular): a record with the wrong wire type yields
errUnknown; otherwise one value is consumed and stored. -/
def consumeSingular (k : Kind) (b : List Nat) (wtyp : WType) :
    Except DecErr (GoVal × Nat) :=
  if wtyp ≠ k.wireTypeOf then .error .unknown
  else
    match consumeGoVal k b with
    | none => .error .parse
    | some (v, n) => .ok (v, n)

/-- The loop of the packed branch of template consumeSlice: consume values
from the block until it is empty, appending each to the slice.  A successful
single-value consume always takes at least one byte, so the zero-advance
guard is never hit; it only justifies termination. -/
def packedLoop (k : Kind) (s : List GoVal) (b : List Nat) :
    Except DecErr (List GoVal) :=
  if b.isEmpty then .ok s
  else
    match consumeGoVal k b with
    | none => .error .parse
    | some (v, n) =>
      if h : 0 < n then packedLoop k (s ++ [v]) (b.drop n)
      else .error .parse
termination_by b.length
decreasing_by
  have hb : ¬ b.isEmpty = true := by assumption
  simp only [List.isEmpty_iff] at hb
  have hlen : b.length ≠ 0 := fun hc => hb (List.length_eq_zero.mp hc)
  simp only [List.length_drop]
  omega

/-- Template consumeSlice: for a packable wire type a BytesType record is
decoded as a packed block of values; otherwise a record of the kind's own
wire type appends one value, and any other wire type is errUnknown. -/
def consumeSlice (k : Kind) (b : List Nat) (s : List GoVal) (wtyp : WType) :
    Except DecErr (List GoVal × Nat) :=
  if k.wireTypeOf.packable = true ∧ wtyp = .bytes then
    match consumeBytes b with
    | none => .error .parse
    | some (blk, n) =>
      match packedLoop k s blk with
      | .error e => .error e
      | .ok s2 => .ok (s2, n)
  else if wtyp ≠ k.wireTypeOf then .error .unknown
  else
    match consumeGoVal k b with
    | none => .error .parse
    | some (v, n) => .ok (s ++ [v], n)

/-- Template appendSlice: one tag and one value per element. -/
def appendSlice (k : Kind) (b : List Nat) (s : List GoVal) (wiretag : Nat) :
    List Nat :=
  s.foldl (fun acc v => appendGoVal k (acc ++ appendVarint wiretag) v) b

/-- The body size computed inside template appendPackedSlice (a constant
size per element for the fixed wire types, a summed size otherwise). -/
def packedBodyLen (k : Kind) (s : List GoVal) : Nat :=
  match k.wireTypeOf with
  | .fixed32 => s.length * 4
  | .fixed64 => s.length * 8
  | _ => s.foldl (fun acc v => acc + sizeGoVal k v) 0

/-- Template appendPackedSlice: an empty slice appends nothing; otherwise
one tag, the body length as a varint, and the concatenated values. -/
def appendPackedSlice (k : Kind) (b : List Nat) (s : List GoVal) (wiretag : Nat) :
    List Nat :=
  if s.isEmpty then b
  else
    s.foldl (fun acc v => appendGoVal k acc v)
      (b ++ appendVarint wiretag ++ appendVarint (packedBodyLen k s))

/-- Modelled from the spec: the unmarshal loop of the binary codec driving a
repeated field's coder (section 4.4): read a tag, check the field number,
dispatch on the wire type, advance by the consumed length.  The positive-
advance guard is never hit on success and only justifies termination. -/
def unmarshalRepeated (k : Kind) (num : Nat) (b : List Nat) (s : List GoVal) :
    Except DecErr (List GoVal) :=
  if b.isEmpty then .ok s
  else
    match consumeVarint b with
    | none => .error .parse
    | some (tag, n) =>
      if tag / 8 ≠ num then .error .unknown
      else
        match wTypeOfCode (tag % 8) with
        | none => .error .parse
        | some wtyp =>
          match consumeSlice k (b.drop n) s wtyp with
          | .error e => .error e
          | .ok (s2, m) =>
            if h : 0 < n then unmarshalRepeated k num (b.drop (n + m)) s2
            else .error .parse
termination_by b.length
decreasing_by
  have hb : ¬ b.isEmpty = true := by assumption
  simp only [List.isEmpty_iff] at hb
  have hlen : b.length ≠ 0 := fun hc => hb (List.length_eq_zero.mp hc)
  simp only [List.length_drop]
  omega

/-- Modelled from the spec: the routing rule of the binary unmarshal loop
(section 4.4): a coder result of errUnknown sends the whole record to the
unknown-field bucket and unmarshal continues with the field state untouched;
parse errors are fatal; a successful consume updates the field state. -/
def routeResult {σ : Type} (st : σ) (unk : List Nat) (record : List Nat)
    (res : Except DecErr (σ × Nat)) : Except DecErr (σ × List Nat) :=
  match res with
  | .ok (st2, _) => .ok (st2, unk)
  | .error .unknown => .ok (st, unk ++ record)
  | .error .parse => .error .parse

/-! ## Round-trip facts about the per-kind conversions and coders -/

theorem toGoType_fromGoType (k : Kind) (p : Nat) (hb : k.isBytesKind = false)
    (hp : p < k.patBound) : k.toGoType (k.fromGoType p) = p := by
  cases k <;>
    simp only [Kind.toGoType, Kind.fromGoType, Kind.patBound, Kind.isBytesKind] at * <;>
    first
    | omega
    | (split_ifs <;> omega)

theorem fromGoType_lt (k : Kind) (p : Nat) (hp : p < k.patBound) :
    k.fromGoType p < 2 ^ 64 := by
  cases k <;>
    simp only [Kind.fromGoType, Kind.patBound] at * <;>
    first
    | omega
    | (split_ifs <;> omega)

/-- The encoding of one value, as appended by the template Append. -/
def encOne (k : Kind) (v : GoVal) : List Nat :=
  appendGoVal k [] v

theorem appendGoVal_split (k : Kind) (b : List Nat) (v : GoVal) :
    appendGoVal k b v = b ++ encOne k v := by
  cases v with
  | num p =>
    cases hk : k.wireTypeOf <;> simp [appendGoVal, encOne, hk]
  | byts bs =>
    simp [appendGoVal, encOne, List.append_assoc]

theorem sizeGoVal_eq_length (k : Kind) (v : GoVal) :
    sizeGoVal k v = (encOne k v).length := by
  cases v with
  | num p =>
    cases hk : k.wireTypeOf <;>
      simp [sizeGoVal, encOne, appendGoVal, hk, sizeVarint, appendFixed32, appendFixed64]
  | byts bs =>
    simp [sizeGoVal, encOne, appendGoVal, sizeBytesLen, sizeVarint]

theorem encOne_ne_nil (k : Kind) (v : GoVal) : encOne k v ≠ [] := by
  cases v with
  | num p =>
    cases hk : k.wireTypeOf <;>
      simp [encOne, appendGoVal, hk, appendFixed32, appendFixed64, appendVarint_ne_nil]
  | byts bs =>
    simp only [encOne, appendGoVal, List.nil_append]
    intro hc
    exact appendVarint_ne_nil bs.length (List.append_eq_nil.mp hc).1

theorem encOne_length_le_ten (k : Kind) (p : Nat) (hb : k.isBytesKind = false)
    (hp : p < k.patBound) : (encOne k (.num p)).length ≤ 10 := by
  have h64 := fromGoType_lt k p hp
  have hvar : (appendVarint (k.fromGoType p)).length ≤ 10 := by
    apply appendVarint_length_le 10 _ (by norm_num)
    calc k.fromGoType p < 2 ^ 64 := h64
    _ ≤ 128 ^ 10 := by norm_num
  cases hk : k.wireTypeOf <;>
    simp [encOne, appendGoVal, hk, appendFixed32, appendFixed64, hvar]

theorem wellTypedB_num (k : Kind) (p : Nat) (hw : wellTypedB k (.num p) = true) :
    k.isBytesKind = false ∧ p < k.patBound := by
  simp only [wellTypedB, Bool.and_eq_true, Bool.not_eq_true', decide_eq_true_eq] at hw
  exact hw

theorem wellTypedB_byts (k : Kind) (bs : List Nat)
    (hw : wellTypedB k (.byts bs) = true) :
    k.isBytesKind = true ∧ bs.length < 2 ^ 64 := by
  simp only [wellTypedB, Bool.and_eq_true, decide_eq_true_eq] at hw
  exact hw

/-- One encoded value at the head of the buffer decodes back to itself,
consuming exactly its encoding. -/
theorem consumeGoVal_encOne (k : Kind) (v : GoVal) (rest : List Nat)
    (hw : wellTypedB k v = true) :
    consumeGoVal k (encOne k v ++ rest) = some (v, (encOne k v).length) := by
  cases v with
  | num p =>
    obtain ⟨hb1, hb2⟩ := wellTypedB_num k p hw
    have h64 := fromGoType_lt k p hb2
    have hto := toGoType_fromGoType k p hb1 hb2
    cases k <;>
      first
      | (simp only [consumeGoVal, encOne, appendGoVal, Kind.wireTypeOf, List.nil_append]
         rw [consumeVarint_append _ rest h64]
         simp [hto])
      | (simp only [consumeGoVal, encOne, appendGoVal, Kind.wireTypeOf, List.nil_append]
         rw [consumeFixed32_append _ rest
           (by simp only [Kind.fromGoType]; simpa [Kind.patBound] using hb2)]
         simp [hto, appendFixed32])
      | (simp only [consumeGoVal, encOne, appendGoVal, Kind.wireTypeOf, List.nil_append]
         rw [consumeFixed64_append _ rest
           (by simp only [Kind.fromGoType]; simpa [Kind.patBound] using hb2)]
         simp [hto, appendFixed64])
      | (simp [Kind.isBytesKind] at hb1)
  | byts bs =>
    obtain ⟨hb1, hb2⟩ := wellTypedB_byts k bs hw
    cases k <;> simp only [Kind.isBytesKind, Bool.false_eq_true] at hb1 <;>
      simp only [consumeGoVal, encOne, appendGoVal, Kind.wireTypeOf, List.nil_append,
        List.append_assoc] <;>
      rw [consumeBytes_append bs rest hb2] <;>
      simp [sizeVarint]

/-! ## Decoding a packed block and an expanded record stream -/

/-- The concatenated encodings of a value sequence: the body of a packed
block. -/
def joinEnc (k : Kind) : List GoVal → List Nat
  | [] => []
  | v :: vs => encOne k v ++ joinEnc k vs

theorem foldl_appendGoVal (k : Kind) (vs : List GoVal) (b : List Nat) :
    vs.foldl (fun acc v => appendGoVal k acc v) b = b ++ joinEnc k vs := by
  induction vs generalizing b with
  | nil => simp [joinEnc]
  | cons v vs ih =>
    rw [List.foldl_cons, ih, appendGoVal_split]
    simp [joinEnc, List.append_assoc]

theorem isBytesKind_iff (k : Kind) :
    k.isBytesKind = true ↔ k.wireTypeOf = .bytes := by
  cases k <;> simp [Kind.isBytesKind, Kind.wireTypeOf]

theorem packable_ne_bytes (k : Kind) (hk : k.wireTypeOf.packable = true) :
    k.wireTypeOf ≠ .bytes := by
  intro hc
  rw [hc] at hk
  simp [WType.packable] at hk

theorem encOne_length_pos (k : Kind) (v : GoVal) : 0 < (encOne k v).length := by
  have := encOne_ne_nil k v
  cases hc : encOne k v with
  | nil => exact absurd hc this
  | cons a l => simp

/-- A successfully consumed packed block of encodings appends exactly the
original values. -/
theorem packedLoop_joinEnc (k : Kind) (vs : List GoVal)
    (hw : ∀ v ∈ vs, wellTypedB k v = true) (s : List GoVal) :
    packedLoop k s (joinEnc k vs) = .ok (s ++ vs) := by
  induction vs generalizing s with
  | nil =>
    rw [packedLoop]
    simp [joinEnc]
  | cons v vs ih =>
    have hwv : wellTypedB k v = true := hw v (by simp)
    have hwr : ∀ x ∈ vs, wellTypedB k x = true := fun x hx => hw x (by simp [hx])
    have hjoin : joinEnc k (v :: vs) = encOne k v ++ joinEnc k vs := rfl
    have hempty : (encOne k v ++ joinEnc k vs).isEmpty = false := by
      have := encOne_length_pos k v
      cases hc : encOne k v ++ joinEnc k vs with
      | nil =>
        have : (encOne k v ++ joinEnc k vs).length = 0 := by rw [hc]; rfl
        simp only [List.length_append] at this
        omega
      | cons a l => rfl
    rw [packedLoop, hjoin]
    simp only [hempty, Bool.false_eq_true, if_false,
      consumeGoVal_encOne k v (joinEnc k vs) hwv]
    rw [dif_pos (encOne_length_pos k v)]
    rw [List.drop_left]
    rw [ih hwr (s ++ [v])]
    simp

theorem joinEnc_length_const (k : Kind) (vs : List GoVal) (c : Nat)
    (hc : ∀ v ∈ vs, (encOne k v).length = c) :
    (joinEnc k vs).length = vs.length * c := by
  induction vs with
  | nil => simp [joinEnc]
  | cons v vs ih =>
    have h1 : (encOne k v).length = c := hc v (by simp)
    have h2 := ih (fun x hx => hc x (by simp [hx]))
    simp only [joinEnc, List.length_append, List.length_cons]
    rw [h1, h2]
    ring

theorem foldl_add_size (k : Kind) (vs : List GoVal) (b : Nat) :
    vs.foldl (fun acc v => acc + sizeGoVal k v) b = b + (joinEnc k vs).length := by
  induction vs generalizing b with
  | nil => simp [joinEnc]
  | cons v vs ih =>
    rw [List.foldl_cons, ih]
    simp only [joinEnc, List.length_append, sizeGoVal_eq_length]
    omega

theorem encOne_length_fixed (k : Kind) (v : GoVal) (hw : wellTypedB k v = true) :
    (k.wireTypeOf = .fixed32 → (encOne k v).length = 4) ∧
    (k.wireTypeOf = .fixed64 → (encOne k v).length = 8) := by
  cases v with
  | num p =>
    constructor <;> intro hk <;>
      simp [encOne, appendGoVal, hk, appendFixed32, appendFixed64]
  | byts bs =>
    obtain ⟨hb1, _⟩ := wellTypedB_byts k bs hw
    have hbytes := (isBytesKind_iff k).mp hb1
    constructor <;> intro hk <;> rw [hk] at hbytes <;> exact absurd hbytes (by simp)

/-- The body length computed by appendPackedSlice is the length of the
concatenated encodings. -/
theorem packedBodyLen_eq (k : Kind) (vs : List GoVal)
    (hw : ∀ v ∈ vs, wellTypedB k v = true) :
    packedBodyLen k vs = (joinEnc k vs).length := by
  unfold packedBodyLen
  cases hk : k.wireTypeOf with
  | fixed32 =>
    show vs.length * 4 = (joinEnc k vs).length
    rw [joinEnc_length_const k vs 4 (fun v hv => (encOne_length_fixed k v (hw v hv)).1 hk)]
  | fixed64 =>
    show vs.length * 8 = (joinEnc k vs).length
    rw [joinEnc_length_const k vs 8 (fun v hv => (encOne_length_fixed k v (hw v hv)).2 hk)]
  | varint =>
    show vs.foldl (fun acc v => acc + sizeGoVal k v) 0 = (joinEnc k vs).length
    rw [foldl_add_size]
    omega
  | bytes =>
    show vs.foldl (fun acc v => acc + sizeGoVal k v) 0 = (joinEnc k vs).length
    rw [foldl_add_size]
    omega
  | startGroup =>
    show vs.foldl (fun acc v => acc + sizeGoVal k v) 0 = (joinEnc k vs).length
    rw [foldl_add_size]
    omega
  | endGroup =>
    show vs.foldl (fun acc v => acc + sizeGoVal k v) 0 = (joinEnc k vs).length
    rw [foldl_add_size]
    omega

theorem encOne_length_le_ten' (k : Kind) (v : GoVal)
    (hk : k.wireTypeOf.packable = true) (hw : wellTypedB k v = true) :
    (encOne k v).length ≤ 10 := by
  cases v with
  | num p =>
    obtain ⟨hb1, hb2⟩ := wellTypedB_num k p hw
    exact encOne_length_le_ten k p hb1 hb2
  | byts bs =>
    obtain ⟨hb1, _⟩ := wellTypedB_byts k bs hw
    exact absurd ((isBytesKind_iff k).mp hb1) (packable_ne_bytes k hk)

theorem joinEnc_length_le (k : Kind) (vs : List GoVal)
    (hk : k.wireTypeOf.packable = true)
    (hw : ∀ v ∈ vs, wellTypedB k v = true) :
    (joinEnc k vs).length ≤ 10 * vs.length := by
  induction vs with
  | nil => simp [joinEnc]
  | cons v vs ih =>
    have h1 := encOne_length_le_ten' k v hk (hw v (by simp))
    have h2 := ih (fun x hx => hw x (by simp [hx]))
    simp only [joinEnc, List.length_append, List.length_cons]
    omega

theorem wTypeOfCode_code (wt : WType) : wTypeOfCode wt.code = some wt := by
  cases wt <;> rfl

theorem wtype_code_lt (wt : WType) : wt.code < 8 := by
  cases wt <;> simp [WType.code]

/-- A single expanded record body (after its tag) appends exactly one value
through consumeSlice. -/
theorem consumeSlice_expanded_one (k : Kind) (hk : k.wireTypeOf.packable = true)
    (v : GoVal) (rest : List Nat) (s : List GoVal)
    (hw : wellTypedB k v = true) :
    consumeSlice k (encOne k v ++ rest) s k.wireTypeOf
      = .ok (s ++ [v], (encOne k v).length) := by
  unfold consumeSlice
  rw [if_neg (fun hc => packable_ne_bytes k hk hc.2)]
  rw [if_neg (by simp)]
  rw [consumeGoVal_encOne k v rest hw]

/-- A packed block record body (after its tag) appends the whole value
sequence through consumeSlice. -/
theorem consumeSlice_packed_block (k : Kind) (hk : k.wireTypeOf.packable = true)
    (vs : List GoVal) (s : List GoVal) (rest : List Nat)
    (hw : ∀ v ∈ vs, wellTypedB k v = true)
    (hbl : (joinEnc k vs).length < 2 ^ 64) :
    consumeSlice k (appendVarint (joinEnc k vs).length ++ (joinEnc k vs ++ rest)) s .bytes
      = .ok (s ++ vs, sizeVarint (joinEnc k vs).length + (joinEnc k vs).length) := by
  unfold consumeSlice
  rw [if_pos ⟨hk, rfl⟩]
  rw [consumeBytes_append (joinEnc k vs) rest hbl]
  show (match packedLoop k s (joinEnc k vs) with
        | Except.error e => Except.error e
        | Except.ok s2 =>
          Except.ok (s2, sizeVarint (joinEnc k vs).length + (joinEnc k vs).length))
      = Except.ok (s ++ vs, sizeVarint (joinEnc k vs).length + (joinEnc k vs).length)
  rw [packedLoop_joinEnc k vs hw s]

/-- The expanded wire stream of a repeated field: one tag and one encoded
value per element (what appendSlice produces over an empty buffer). -/
def taggedEnc (k : Kind) (w : Nat) : List GoVal → List Nat
  | [] => []
  | v :: vs => appendVarint w ++ (encOne k v ++ taggedEnc k w vs)

theorem appendSlice_split (k : Kind) (b : List Nat) (vs : List GoVal) (w : Nat) :
    appendSlice k b vs w = b ++ taggedEnc k w vs := by
  induction vs generalizing b with
  | nil => simp [appendSlice, taggedEnc]
  | cons v vs ih =>
    show List.foldl _ _ (v :: vs) = _
    rw [List.foldl_cons]
    show appendSlice k (appendGoVal k (b ++ appendVarint w) v) vs w = _
    rw [ih, appendGoVal_split]
    simp [taggedEnc, List.append_assoc]

theorem unmarshalRepeated_nil (k : Kind) (num : Nat) (s : List GoVal) :
    unmarshalRepeated k num [] s = .ok s := by
  rw [unmarshalRepeated]
  simp

/-- One record step of the repeated-field unmarshal loop: a well-formed tag
followed by a record body the slice coder accepts advances past the record
with the appended state. -/
theorem unmarshalRepeated_cons (k : Kind) (num w : Nat) (hwlt : w < 2 ^ 64)
    (brest : List Nat) (s : List GoVal)
    (hdiv : w / 8 = num) (wt : WType) (hmod : wTypeOfCode (w % 8) = some wt)
    (s2 : List GoVal) (m : Nat)
    (hcs : consumeSlice k brest s wt = .ok (s2, m)) :
    unmarshalRepeated k num (appendVarint w ++ brest) s
      = unmarshalRepeated k num (brest.drop m) s2 := by
  rw [unmarshalRepeated]
  have hne := appendVarint_ne_nil w
  have hempty : (appendVarint w ++ brest).isEmpty = false := by
    cases hc : appendVarint w with
    | nil => exact absurd hc hne
    | cons a l => rfl
  rw [hempty]
  simp only [Bool.false_eq_true, if_false]
  rw [consumeVarint_append w brest hwlt]
  simp only [hdiv, ne_eq, not_true_eq_false, if_false, hmod]
  rw [List.drop_left]
  rw [hcs]
  simp only []
  rw [dif_pos (by
    cases hc : appendVarint w with
    | nil => exact absurd hc hne
    | cons a l => simp)]
  congr 1
  exact List.drop_append m

/-- Decoding the expanded record stream of a value sequence appends exactly
that sequence. -/
theorem unmarshalRepeated_taggedEnc (k : Kind) (hk : k.wireTypeOf.packable = true)
    (num : Nat) (hnum : num < 2 ^ 29) (vs : List GoVal)
    (hw : ∀ v ∈ vs, wellTypedB k v = true) (s : List GoVal) :
    unmarshalRepeated k num (taggedEnc k (num * 8 + (k.wireTypeOf).code) vs) s
      = .ok (s ++ vs) := by
  induction vs generalizing s with
  | nil =>
    rw [show taggedEnc k (num * 8 + (k.wireTypeOf).code) [] = [] from rfl]
    rw [unmarshalRepeated_nil]
    simp
  | cons v vs ih =>
    have hwv : wellTypedB k v = true := hw v (by simp)
    have hwr : ∀ x ∈ vs, wellTypedB k x = true := fun x hx => hw x (by simp [hx])
    have hcode := wtype_code_lt k.wireTypeOf
    have hwlt : num * 8 + (k.wireTypeOf).code < 2 ^ 64 := by omega
    show unmarshalRepeated k num (appendVarint (num * 8 + (k.wireTypeOf).code) ++
      (encOne k v ++ taggedEnc k (num * 8 + (k.wireTypeOf).code) vs)) s = _
    rw [unmarshalRepeated_cons k num _ hwlt _ s (by omega) k.wireTypeOf
      (by rw [show (num * 8 + (k.wireTypeOf).code) % 8 = (k.wireTypeOf).code from by omega,
        wTypeOfCode_code])
      (s ++ [v]) (encOne k v).length
      (consumeSlice_expanded_one k hk v _ s hwv)]
    rw [List.drop_left]
    rw [ih hwr (s ++ [v])]
    simp

/-- Decoding the packed block stream written by appendPackedSlice appends
exactly the value sequence. -/
theorem unmarshalRepeated_packed (k : Kind) (hk : k.wireTypeOf.packable = true)
    (num : Nat) (hnum : num < 2 ^ 29) (vs : List GoVal)
    (hw : ∀ v ∈ vs, wellTypedB k v = true) (s : List GoVal)
    (hbl : (joinEnc k vs).length < 2 ^ 64) :
    unmarshalRepeated k num (appendPackedSlice k [] vs (num * 8 + 2)) s
      = .ok (s ++ vs) := by
  cases vs with
  | nil =>
    rw [show appendPackedSlice k [] [] (num * 8 + 2) = [] from rfl]
    rw [unmarshalRepeated_nil]
    simp
  | cons v0 vs0 =>
    have happ : appendPackedSlice k [] (v0 :: vs0) (num * 8 + 2)
        = appendVarint (num * 8 + 2) ++
          (appendVarint (packedBodyLen k (v0 :: vs0)) ++ joinEnc k (v0 :: vs0)) := by
      unfold appendPackedSlice
      rw [if_neg (by simp)]
      rw [foldl_appendGoVal]
      simp [List.append_assoc]
    rw [happ, packedBodyLen_eq k (v0 :: vs0) hw]
    have hcs : consumeSlice k (appendVarint (joinEnc k (v0 :: vs0)).length ++
        joinEnc k (v0 :: vs0)) s .bytes
        = .ok (s ++ (v0 :: vs0),
            sizeVarint (joinEnc k (v0 :: vs0)).length + (joinEnc k (v0 :: vs0)).length) := by
      have := consumeSlice_packed_block k hk (v0 :: vs0) s [] hw hbl
      simpa using this
    rw [unmarshalRepeated_cons k num (num * 8 + 2) (by omega) _ s (by omega) .bytes
      (by rw [show (num * 8 + 2) % 8 = 2 from by omega]; rfl)
      (s ++ (v0 :: vs0)) _ hcs]
    rw [List.drop_eq_nil_of_le (by
      simp only [List.length_append]
      have : (appendVarint (joinEnc k (v0 :: vs0)).length).length
          = sizeVarint (joinEnc k (v0 :: vs0)).length := rfl
      omega)]
    rw [unmarshalRepeated_nil]


/-! ## Claim C1 -/

/-- C1: for every repeated scalar field of a packable kind, the unmarshal
coder accepts both a single length-delimited packed block and a sequence of
one-record-per-element expanded records, and decoding the packed form of a
value sequence yields the same resulting message (the same slice contents)
as decoding the expanded form of the same sequence: both decodes succeed and
both produce the initial slice extended by exactly the value sequence. -/
theorem packed_and_expanded_decode_agree (k : Kind)
    (hk : k.wireTypeOf.packable = true)
    (num : Nat) (hnum : num < 2 ^ 29)
    (vs : List GoVal) (hw : ∀ v ∈ vs, wellTypedB k v = true)
    (hcount : vs.length ≤ 2 ^ 32) (s : List GoVal) :
    unmarshalRepeated k num (appendPackedSlice k [] vs (num * 8 + WType.bytes.code)) s
      = .ok (s ++ vs) ∧
    unmarshalRepeated k num (appendSlice k [] vs (num * 8 + (k.wireTypeOf).code)) s
      = .ok (s ++ vs) := by
  have hbl : (joinEnc k vs).length < 2 ^ 64 := by
    have h1 := joinEnc_length_le k vs hk hw
    omega
  constructor
  · rw [show WType.bytes.code = 2 from rfl]
    exact unmarshalRepeated_packed k hk num hnum vs hw s hbl
  · rw [appendSlice_split k [] vs (num * 8 + (k.wireTypeOf).code)]
    rw [List.nil_append]
    exact unmarshalRepeated_taggedEnc k hk num hnum vs hw s

/-- C1 witness: the sint32 kind, field number 1, the values 5 and -3 (the
32-bit pattern 4294967293); both the packed and the expanded form decode to
the same two-element slice. -/
theorem packed_and_expanded_decode_agree_witness :
    Kind.sint32.wireTypeOf.packable = true ∧
    (1 : Nat) < 2 ^ 29 ∧
    (∀ v ∈ [GoVal.num 5, GoVal.num 4294967293], wellTypedB .sint32 v = true) ∧
    ([GoVal.num 5, GoVal.num 4294967293].length ≤ 2 ^ 32) ∧
    (unmarshalRepeated .sint32 1
        (appendPackedSlice .sint32 [] [GoVal.num 5, GoVal.num 4294967293]
          (1 * 8 + WType.bytes.code)) []
      = .ok [GoVal.num 5, GoVal.num 4294967293] ∧
    unmarshalRepeated .sint32 1
        (appendSlice .sint32 [] [GoVal.num 5, GoVal.num 4294967293]
          (1 * 8 + (Kind.sint32.wireTypeOf).code)) []
      = .ok [GoVal.num 5, GoVal.num 4294967293]) := by
  have h := packed_and_expanded_decode_agree .sint32 (by decide) 1 (by decide)
    [GoVal.num 5, GoVal.num 4294967293] (by decide) (by decide) []
  refine ⟨by decide, by decide, by decide, by decide, ?_, ?_⟩
  · simpa using h.1
  · simpa using h.2

/-! ## Claim C2 -/

/-- The specification's notion of a value equal to its kind's zero: an empty
byte string, a zero integer or bool pattern, or a float or double whose IEEE
value compares equal to zero (pattern plus zero or minus zero). -/
def eqKindZero (k : Kind) (v : GoVal) : Prop :=
  match v, k with
  | .byts bs, _ => bs = []
  | .num p, .float => p = 0 ∨ p = 2 ^ 31
  | .num p, .double => p = 0 ∨ p = 2 ^ 63
  | .num p, _ => p = 0

/-- A float or double negative zero: a zero with the sign bit set. -/
def isNegZero (k : Kind) (v : GoVal) : Prop :=
  match v, k with
  | .num p, .float => p = 2 ^ 31
  | .num p, .double => p = 2 ^ 63
  | _, _ => False

theorem isZeroVal_iff (k : Kind) (v : GoVal) :
    isZeroVal k v = true ↔ (eqKindZero k v ∧ ¬ isNegZero k v) := by
  cases v with
  | num p =>
    cases k <;> simp [isZeroVal, eqKindZero, isNegZero] <;> omega
  | byts bs =>
    cases k <;> simp [isZeroVal, eqKindZero, isNegZero, List.isEmpty_iff]

theorem sizeGoVal_pos (k : Kind) (v : GoVal) : 0 < sizeGoVal k v := by
  rw [sizeGoVal_eq_length]
  exact encOne_length_pos k v

/-- C2: for every proto3 no-presence singular scalar field, the NoZero
marshal coder emits nothing and its size function returns 0 exactly when the
value equals the kind's zero, except that a float or double negative zero
(a zero pattern with the sign bit set) is treated as non-zero; in the
emitting case the output is the wiretag followed by the encoded value. -/
theorem noZero_skips_exactly_kind_zero (k : Kind) (v : GoVal) (b : List Nat)
    (tagsize wiretag : Nat) :
    (sizeNoZero k v tagsize = 0 ↔ (eqKindZero k v ∧ ¬ isNegZero k v)) ∧
    (appendNoZero k b v wiretag = b ↔ (eqKindZero k v ∧ ¬ isNegZero k v)) ∧
    (¬ (eqKindZero k v ∧ ¬ isNegZero k v) →
      appendNoZero k b v wiretag = appendGoVal k (b ++ appendVarint wiretag) v) := by
  have hiff := isZeroVal_iff k v
  by_cases hz : isZeroVal k v = true
  · refine ⟨?_, ?_, ?_⟩
    · simp [sizeNoZero, hz, hiff.mp hz]
    · simp [appendNoZero, hz, hiff.mp hz]
    · intro hc
      exact absurd (hiff.mp hz) hc
  · have hne : ¬ (eqKindZero k v ∧ ¬ isNegZero k v) := fun hc => hz (hiff.mpr hc)
    refine ⟨?_, ?_, ?_⟩
    · have hpos := sizeGoVal_pos k v
      unfold sizeNoZero
      rw [if_neg hz]
      constructor
      · intro hc
        omega
      · intro hc
        exact absurd hc hne
    · unfold appendNoZero
      rw [if_neg hz]
      constructor
      · intro hc
        have hlen : (appendGoVal k (b ++ appendVarint wiretag) v).length = b.length := by
          rw [hc]
        rw [appendGoVal_split] at hlen
        simp only [List.length_append] at hlen
        have h1 := encOne_length_pos k v
        have h2 := sizeVarint_pos wiretag
        unfold sizeVarint at h2
        omega
      · intro hc
        exact absurd hc hne
    · intro _
      unfold appendNoZero
      rw [if_neg hz]

/-! ## Claim C5 -/

/-- C5: a record whose field number is known but whose wire type does not
match the field's wire type, with no packed tolerance applicable, is not
fatal: the singular consume function and the slice consume function both
return the errUnknown indication, and the unmarshal routing rule then sends
the record bytes to the unknown-field bucket and continues with the field
state untouched. -/
theorem wire_mismatch_routes_to_unknown (k : Kind) (wtyp : WType) (b : List Nat)
    (v0 : GoVal) (s : List GoVal) (unk record : List Nat)
    (h1 : wtyp ≠ k.wireTypeOf)
    (h2 : ¬ (k.wireTypeOf.packable = true ∧ wtyp = .bytes)) :
    consumeSingular k b wtyp = .error .unknown ∧
    consumeSlice k b s wtyp = .error .unknown ∧
    routeResult v0 unk record (consumeSingular k b wtyp) = .ok (v0, unk ++ record) := by
  have hc1 : consumeSingular k b wtyp = .error .unknown := by
    unfold consumeSingular
    rw [if_pos h1]
  refine ⟨hc1, ?_, ?_⟩
  · unfold consumeSlice
    rw [if_neg h2, if_pos h1]
  · rw [hc1]
    rfl

/-- C5 witness: a bool field (varint wire type) receiving a fixed32 record:
the consume functions return errUnknown and the record lands in the
unknown-field bucket with decoding continuing. -/
theorem wire_mismatch_routes_to_unknown_witness :
    (WType.fixed32 ≠ Kind.bool.wireTypeOf) ∧
    (¬ (Kind.bool.wireTypeOf.packable = true ∧ WType.fixed32 = WType.bytes)) ∧
    (consumeSingular .bool [1, 2, 3, 4] .fixed32 = .error .unknown ∧
     consumeSlice .bool [1, 2, 3, 4] [] .fixed32 = .error .unknown ∧
     routeResult (GoVal.num 0) [] [13, 1, 2, 3, 4]
       (consumeSingular .bool [1, 2, 3, 4] .fixed32)
       = .ok (GoVal.num 0, [] ++ [13, 1, 2, 3, 4])) := by
  have h := wire_mismatch_routes_to_unknown .bool .fixed32 [1, 2, 3, 4]
    (GoVal.num 0) [] [] [13, 1, 2, 3, 4] (by decide) (by decide)
  exact ⟨by decide, by decide, h⟩

/-! ## Text codec: marshal with required-field validation

The prototext encoder itself is not among the given sources (only its tests
are), so it is modelled from the spec: section 4.5 for printing, section 4.6
for the required/partial validator, section 7 for the propagation policy
(MissingRequired is reported after producing the output). -/

mutual
/-- Modelled from the spec: a text-format message value, either a scalar
literal token or a message literal of fields (section 4.5). -/
inductive TNode where
  | scalarN (tok : String)
  | msgN (fields : List TField)
/-- Modelled from the spec: a field of an in-memory message: name, whether
the descriptor marks it required, and its value when set (sections 3, 4.5). -/
inductive TField where
  | mk (name : String) (required : Bool) (val : Option TNode)
end

/-- The closed set of text-codec error kinds the claims mention
(spec section 7). -/
inductive TErr where
  | unknownField
  | duplicateField
  | missingRequired
  | anyConflict
deriving DecidableEq, Repr

mutual
/-- Modelled from the spec: printing a text value; a message literal prints
its set fields between braces (section 4.5). -/
def printNode : TNode → String
  | .scalarN tok => tok
  | .msgN fs => "\x7b" ++ printTFields fs ++ "\x7d"
/-- Modelled from the spec: printing the set fields of a message in order;
unset fields are skipped (section 4.5). -/
def printTFields : List TField → String
  | [] => ""
  | .mk _ _ none :: rest => printTFields rest
  | .mk n _ (some v) :: rest => n ++ ": " ++ printNode v ++ "\n" ++ printTFields rest
end

mutual
/-- Modelled from the spec: whether any required field is unset, directly or
transitively through set sub-messages (sections 4.4 and 4.6). -/
def fieldsMissingReq : List TField → Bool
  | [] => false
  | .mk _ req none :: rest => req || fieldsMissingReq rest
  | .mk _ _ (some v) :: rest => nodeMissingReq v || fieldsMissingReq rest
def nodeMissingReq : TNode → Bool
  | .scalarN _ => false
  | .msgN fs => fieldsMissingReq fs
end

/-- Modelled from the spec: text marshal of a message; the output is always
produced (a single newline for an empty message), and the required-field
validator runs afterwards unless AllowPartial is set, its error carried
alongside the output (sections 4.5, 4.6, 7). -/
def marshalText (allowPartial : Bool) (fs : List TField) : String × Option TErr :=
  let out := printTFields fs
  let out2 := if out = "" then "\n" else out
  (out2, if allowPartial = false && fieldsMissingReq fs then some .missingRequired else none)

/-! ## Claim C3 -/

/-- C3: marshaling a message with required fields unset (directly or
transitively) without AllowPartial still produces exactly the output a
partial marshal of the same message produces, and returns the
MissingRequired error alongside that output instead of suppressing it. -/
theorem marshal_missing_required_keeps_output (fs : List TField)
    (h : fieldsMissingReq fs = true) :
    (marshalText false fs).1 = (marshalText true fs).1 ∧
    (marshalText false fs).2 = some .missingRequired ∧
    (marshalText true fs).2 = none := by
  simp [marshalText, h]

/-- The pb2.Requireds message of the tests with only some required fields
set (required fields partially set). -/
def requiredsPartial : List TField :=
  [.mk "req_bool" true (some (.scalarN "false")),
   .mk "req_sfixed64" true (some (.scalarN "3203386110")),
   .mk "req_double" true (some (.scalarN "nan")),
   .mk "req_string" true (some (.scalarN "\"hello\"")),
   .mk "req_enum" true (some (.scalarN "ONE")),
   .mk "req_nested" true none]

/-- C3 witness: the partially set pb2.Requireds message marshals to the same
text with and without AllowPartial, and without it the MissingRequired error
rides alongside. -/
theorem marshal_missing_required_keeps_output_witness :
    fieldsMissingReq requiredsPartial = true ∧
    ((marshalText false requiredsPartial).1 = (marshalText true requiredsPartial).1 ∧
     (marshalText false requiredsPartial).2 = some .missingRequired ∧
     (marshalText true requiredsPartial).2 = none) := by
  have hm : fieldsMissingReq requiredsPartial = true := by
    simp [requiredsPartial, fieldsMissingReq]
  exact ⟨hm, marshal_missing_required_keeps_output requiredsPartial hm⟩

/-! ## Text codec: unmarshal

Modelled from the spec: the text decoder is not among the given sources
(only its tests are).  Entries are processed in stream order; an undefined
field name errors unless explicitly reserved (section 4.5, Validation); a
duplicate singular field errors; the required validator runs at the end
unless AllowPartial is set, its error carried alongside the filled message
(sections 4.6 and 7). -/

inductive Card where
  | singular
  | repeated
  | mapCard
deriving DecidableEq, Repr

structure FieldD where
  name : String
  card : Card
  required : Bool
deriving DecidableEq, Repr

structure Descriptor where
  fields : List FieldD
  reservedNames : List String
deriving DecidableEq, Repr

/-- One parsed text entry: a field name and its value token. -/
structure Entry where
  name : String
  val : String
deriving DecidableEq, Repr

/-- The decoded message state: singular fields set so far (each at most
once) and the accumulated records of repeated and map fields. -/
structure MsgState where
  singles : List (String × String)
  multis : List (String × String)
deriving DecidableEq, Repr

def Descriptor.lookupF (d : Descriptor) (n : String) : Option FieldD :=
  d.fields.find? (fun f => f.name == n)

/-- Modelled from the spec: processing one entry (section 4.5, Validation):
an undefined name errors with UnknownField unless explicitly reserved, in
which case the entry is skipped; a singular field already set errors with
DuplicateField; otherwise the entry is recorded. -/
def stepEntry (d : Descriptor) (st : MsgState) (e : Entry) : Except TErr MsgState :=
  match d.lookupF e.name with
  | none => if e.name ∈ d.reservedNames then .ok st else .error .unknownField
  | some f =>
    match f.card with
    | .singular =>
      if (st.singles.lookup e.name).isSome then .error .duplicateField
      else .ok { st with singles := st.singles ++ [(e.name, e.val)] }
    | _ => .ok { st with multis := st.multis ++ [(e.name, e.val)] }

def decodeEntries (d : Descriptor) : MsgState → List Entry → Except TErr MsgState
  | st, [] => .ok st
  | st, e :: rest =>
    match stepEntry d st e with
    | .error er => .error er
    | .ok st2 => decodeEntries d st2 rest

def emptyState : MsgState := ⟨[], []⟩

/-- Modelled from the spec: the post-decode required-field check
(section 4.6). -/
def stateMissingRequired (d : Descriptor) (st : MsgState) : Bool :=
  d.fields.any (fun f => f.required && (st.singles.lookup f.name).isNone)

/-- Modelled from the spec: text unmarshal; parse errors abort, the
required-field validator runs afterwards unless AllowPartial is set and its
error is carried alongside the filled message (sections 4.6 and 7). -/
def unmarshalText (allowPartial : Bool) (d : Descriptor) (es : List Entry) :
    Except TErr (MsgState × Option TErr) :=
  match decodeEntries d emptyState es with
  | .error er => .error er
  | .ok st =>
    .ok (st, if allowPartial = false && stateMissingRequired d st
             then some .missingRequired else none)

/-! ## Claim C6 -/

/-- C6: AllowPartial suppresses required-field validation on both sides: a
message (or input) that yields MissingRequired without the option succeeds
with no error when it is set, and the produced output (or decoded state) is
identical. -/
theorem allow_partial_suppresses_required (fs : List TField) (d : Descriptor)
    (es : List Entry) (st : MsgState)
    (hm : fieldsMissingReq fs = true)
    (hdec : decodeEntries d emptyState es = .ok st)
    (hmiss : stateMissingRequired d st = true) :
    (marshalText false fs).2 = some .missingRequired ∧
    (marshalText true fs).2 = none ∧
    (marshalText true fs).1 = (marshalText false fs).1 ∧
    unmarshalText false d es = .ok (st, some .missingRequired) ∧
    unmarshalText true d es = .ok (st, none) := by
  refine ⟨?_, ?_, ?_, ?_, ?_⟩
  · simp [marshalText, hm]
  · simp [marshalText]
  · simp [marshalText]
  · simp [unmarshalText, hdec, hmiss]
  · simp [unmarshalText, hdec]

/-- The pb2.Requireds descriptor of the tests: six required singular
fields. -/
def dRequireds : Descriptor :=
  ⟨[⟨"req_bool", .singular, true⟩, ⟨"req_sfixed64", .singular, true⟩,
    ⟨"req_double", .singular, true⟩, ⟨"req_string", .singular, true⟩,
    ⟨"req_enum", .singular, true⟩, ⟨"req_nested", .singular, true⟩], []⟩

/-- The entries of the tests' input (required fields partially set). -/
def esRequiredsPartial : List Entry :=
  [⟨"req_bool", "false"⟩, ⟨"req_sfixed64", "3203386110"⟩,
   ⟨"req_string", "\"hello\""⟩, ⟨"req_enum", "ONE"⟩]

/-- The state those entries decode to. -/
def stRequiredsPartial : MsgState :=
  ⟨[("req_bool", "false"), ("req_sfixed64", "3203386110"),
    ("req_string", "\"hello\""), ("req_enum", "ONE")], []⟩

/-- C6 witness: the partially set pb2.Requireds message and the matching
text input; without AllowPartial both directions report MissingRequired,
with it both succeed with the identical payload. -/
theorem allow_partial_suppresses_required_witness :
    fieldsMissingReq requiredsPartial = true ∧
    decodeEntries dRequireds emptyState esRequiredsPartial = .ok stRequiredsPartial ∧
    stateMissingRequired dRequireds stRequiredsPartial = true ∧
    ((marshalText false requiredsPartial).2 = some .missingRequired ∧
     (marshalText true requiredsPartial).2 = none ∧
     (marshalText true requiredsPartial).1 = (marshalText false requiredsPartial).1 ∧
     unmarshalText false dRequireds esRequiredsPartial
       = .ok (stRequiredsPartial, some .missingRequired) ∧
     unmarshalText true dRequireds esRequiredsPartial
       = .ok (stRequiredsPartial, none)) := by
  have h1 : fieldsMissingReq requiredsPartial = true := by
    simp [requiredsPartial, fieldsMissingReq]
  have h2 : decodeEntries dRequireds emptyState esRequiredsPartial
      = .ok stRequiredsPartial := by rfl
  have h3 : stateMissingRequired dRequireds stRequiredsPartial = true := by rfl
  exact ⟨h1, h2, h3,
    allow_partial_suppresses_required requiredsPartial dRequireds
      esRequiredsPartial stRequiredsPartial h1 h2 h3⟩

/-! ## Claim C7 -/

/-- How many entries of the input name a given field. -/
def entriesNamed (n : String) (es : List Entry) : Nat :=
  (es.filter (fun e => e.name == n)).length

theorem lookup_append_ne (l : List (String × String)) (m n v : String)
    (h : m ≠ n) : (l ++ [(m, v)]).lookup n = l.lookup n := by
  induction l with
  | nil =>
    have hb : (n == m) = false := by
      simp only [beq_eq_false_iff_ne, ne_eq]
      exact fun hc => h hc.symm
    simp [List.lookup, hb]
  | cons p l ih =>
    cases hb : (n == p.1) <;> simp [List.lookup, hb, ih]

theorem lookup_append_self (l : List (String × String)) (n v : String)
    (h : l.lookup n = none) : (l ++ [(n, v)]).lookup n = some v := by
  induction l with
  | nil => simp [List.lookup]
  | cons p l ih =>
    cases hb : (n == p.1) with
    | false =>
      rw [List.lookup] at h
      rw [hb] at h
      simp [List.lookup, hb, ih h]
    | true =>
      rw [List.lookup] at h
      rw [hb] at h
      simp at h

theorem entriesNamed_cons_eq (n : String) (e : Entry) (es : List Entry)
    (h : e.name = n) : entriesNamed n (e :: es) = entriesNamed n es + 1 := by
  simp [entriesNamed, List.filter_cons, h]

theorem entriesNamed_cons_ne (n : String) (e : Entry) (es : List Entry)
    (h : ¬ e.name = n) : entriesNamed n (e :: es) = entriesNamed n es := by
  have hb : (e.name == n) = false := by
    simp only [beq_eq_false_iff_ne, ne_eq]
    exact h
  simp [entriesNamed, List.filter_cons, hb]

theorem dup_aux (d : Descriptor) (n : String) (f : FieldD)
    (hf : d.lookupF n = some f) (hsing : f.card = .singular) :
    ∀ (es : List Entry) (st : MsgState),
      (∀ e ∈ es, (d.lookupF e.name).isSome = true ∨ e.name ∈ d.reservedNames) →
      (((st.singles.lookup n).isSome = true → 1 ≤ entriesNamed n es →
          decodeEntries d st es = .error .duplicateField) ∧
       ((st.singles.lookup n).isSome = false → 2 ≤ entriesNamed n es →
          decodeEntries d st es = .error .duplicateField)) := by
  intro es
  induction es with
  | nil =>
    intro st hdef
    constructor <;> intro h1 h2 <;> simp [entriesNamed] at h2
  | cons e es ih =>
    intro st hdef
    have hdefr : ∀ x ∈ es, (d.lookupF x.name).isSome = true ∨ x.name ∈ d.reservedNames :=
      fun x hx => hdef x (List.mem_cons_of_mem _ hx)
    have hdefe := hdef e (List.mem_cons_self _ _)
    by_cases hn : e.name = n
    · subst hn
      have hstep : stepEntry d st e
          = if (st.singles.lookup e.name).isSome then Except.error TErr.duplicateField
            else Except.ok { st with singles := st.singles ++ [(e.name, e.val)] } := by
        simp [stepEntry, hf, hsing]
      constructor
      · intro hsome hcount
        simp [decodeEntries, hstep, hsome]
      · intro hnone hcount
        have hlknone : st.singles.lookup e.name = none := by
          cases hl : st.singles.lookup e.name with
          | none => rfl
          | some w => rw [hl] at hnone; simp at hnone
        simp only [decodeEntries, hstep, hnone, Bool.false_eq_true, if_false]
        refine (ih _ hdefr).1 ?_ ?_
        · simp [lookup_append_self st.singles e.name e.val hlknone]
        · rw [entriesNamed_cons_eq e.name e es rfl] at hcount
          omega
    · have hcnt := entriesNamed_cons_ne n e es hn
      rcases hlf : d.lookupF e.name with _ | g
      · have hres : e.name ∈ d.reservedNames := by
          rcases hdefe with hd1 | hd2
          · rw [hlf] at hd1; simp at hd1
          · exact hd2
        have hstep : stepEntry d st e = .ok st := by
          simp [stepEntry, hlf, hres]
        constructor <;> intro h1 h2 <;> simp only [decodeEntries, hstep] <;>
          rw [hcnt] at h2
        · exact (ih st hdefr).1 h1 h2
        · exact (ih st hdefr).2 h1 h2
      · cases hg : g.card with
        | singular =>
          by_cases hdup2 : (st.singles.lookup e.name).isSome = true
          · have hstep : stepEntry d st e = .error .duplicateField := by
              simp [stepEntry, hlf, hg, hdup2]
            constructor <;> intro h1 h2 <;> simp only [decodeEntries, hstep]
          · have hstep : stepEntry d st e
                = .ok { st with singles := st.singles ++ [(e.name, e.val)] } := by
              simp [stepEntry, hlf, hg, hdup2]
            have hlk : (st.singles ++ [(e.name, e.val)]).lookup n
                = st.singles.lookup n := lookup_append_ne st.singles e.name n e.val hn
            constructor <;> intro h1 h2 <;> simp only [decodeEntries, hstep] <;>
              rw [hcnt] at h2
            · exact (ih _ hdefr).1 (by rw [show ({ st with
                singles := st.singles ++ [(e.name, e.val)] } : MsgState).singles
                = st.singles ++ [(e.name, e.val)] from rfl, hlk]; exact h1) h2
            · exact (ih _ hdefr).2 (by rw [show ({ st with
                singles := st.singles ++ [(e.name, e.val)] } : MsgState).singles
                = st.singles ++ [(e.name, e.val)] from rfl, hlk]; exact h1) h2
        | repeated =>
          have hstep : stepEntry d st e
              = .ok { st with multis := st.multis ++ [(e.name, e.val)] } := by
            simp [stepEntry, hlf, hg]
          constructor <;> intro h1 h2 <;> simp only [decodeEntries, hstep] <;>
            rw [hcnt] at h2
          · exact (ih _ hdefr).1 h1 h2
          · exact (ih _ hdefr).2 h1 h2
        | mapCard =>
          have hstep : stepEntry d st e
              = .ok { st with multis := st.multis ++ [(e.name, e.val)] } := by
            simp [stepEntry, hlf, hg]
          constructor <;> intro h1 h2 <;> simp only [decodeEntries, hstep] <;>
            rw [hcnt] at h2
          · exact (ih _ hdefr).1 h1 h2
          · exact (ih _ hdefr).2 h1 h2

/-- C7: a text input that names the same singular field more than once,
adjacent or separated by other entries, fails with the DuplicateField error
(every entry naming a defined or reserved field, so no earlier
unknown-field failure intervenes). -/
theorem duplicate_singular_field_errors (d : Descriptor) (es : List Entry)
    (n : String) (f : FieldD)
    (hf : d.lookupF n = some f) (hsing : f.card = .singular)
    (hdef : ∀ e ∈ es, (d.lookupF e.name).isSome = true ∨ e.name ∈ d.reservedNames)
    (hdup : 2 ≤ entriesNamed n es) :
    decodeEntries d emptyState es = .error .duplicateField := by
  exact (dup_aux d n f hf hsing es emptyState hdef).2 rfl hdup

/-- The proto2 scalars descriptor of the tests (two singular fields). -/
def dScalars : Descriptor :=
  ⟨[⟨"opt_bool", .singular, false⟩, ⟨"opt_string", .singular, false⟩], []⟩

/-- C7 witness: opt_bool set twice with opt_string between them (the proto2
more duplicate singular field test): decoding errors with DuplicateField. -/
theorem duplicate_singular_field_errors_witness :
    dScalars.lookupF "opt_bool" = some ⟨"opt_bool", .singular, false⟩ ∧
    Card.singular = Card.singular ∧
    (∀ e ∈ ([⟨"opt_bool", "true"⟩, ⟨"opt_string", "\"hello\""⟩,
        ⟨"opt_bool", "false"⟩] : List Entry),
      (dScalars.lookupF e.name).isSome = true ∨ e.name ∈ dScalars.reservedNames) ∧
    2 ≤ entriesNamed "opt_bool" [⟨"opt_bool", "true"⟩, ⟨"opt_string", "\"hello\""⟩,
        ⟨"opt_bool", "false"⟩] ∧
    decodeEntries dScalars emptyState [⟨"opt_bool", "true"⟩,
        ⟨"opt_string", "\"hello\""⟩, ⟨"opt_bool", "false"⟩]
      = .error .duplicateField := by
  refine ⟨by rfl, rfl, by decide, by decide, ?_⟩
  exact duplicate_singular_field_errors dScalars _ "opt_bool" ⟨"opt_bool", .singular, false⟩
    (by rfl) rfl (by decide) (by decide)

/-! ## Claim C9 -/

theorem unknown_aux (d : Descriptor) :
    ∀ (es : List Entry) (st : MsgState),
      (∃ e ∈ es, d.lookupF e.name = none ∧ e.name ∉ d.reservedNames) →
      ∃ er, decodeEntries d st es = .error er := by
  intro es
  induction es with
  | nil =>
    intro st h
    rcases h with ⟨e, he, _⟩
    simp at he
  | cons e es ih =>
    intro st h
    rcases hse : stepEntry d st e with er | st2
    · exact ⟨er, by simp only [decodeEntries, hse]⟩
    · rcases h with ⟨x, hx, hbad⟩
      rcases List.mem_cons.mp hx with rfl | hmem
      · exfalso
        have : stepEntry d st x = .error .unknownField := by
          simp [stepEntry, hbad.1, hbad.2]
        rw [this] at hse
        cases hse
      · rcases ih st2 ⟨x, hmem, hbad⟩ with ⟨er, her⟩
        exact ⟨er, by simp only [decodeEntries, hse]; exact her⟩

/-- C9: text unmarshal fails for every entry whose field name the
descriptor does not define, unless the name is explicitly reserved: per
entry the decoder errors with UnknownField exactly in the
undefined-and-unreserved case and skips a reserved name without error, and
a stream containing an undefined unreserved name never decodes
successfully. -/
theorem unknown_field_errors_unless_reserved (d : Descriptor) (es : List Entry)
    (hbad : ∃ e ∈ es, d.lookupF e.name = none ∧ e.name ∉ d.reservedNames) :
    (∃ er, decodeEntries d emptyState es = .error er) ∧
    (∀ (st : MsgState) (e2 : Entry), d.lookupF e2.name = none →
        e2.name ∉ d.reservedNames → stepEntry d st e2 = .error .unknownField) ∧
    (∀ (st : MsgState) (e2 : Entry), d.lookupF e2.name = none →
        e2.name ∈ d.reservedNames → stepEntry d st e2 = .ok st) := by
  refine ⟨unknown_aux d es emptyState hbad, ?_, ?_⟩
  · intro st e2 h1 h2
    simp [stepEntry, h1, h2]
  · intro st e2 h1 h2
    simp [stepEntry, h1, h2]

/-- The pb2.Nests descriptor fragment of the tests: one defined field and
the reserved name used by the ignore-reserved-field test. -/
def dNests : Descriptor :=
  ⟨[⟨"opt_nested", .singular, false⟩], ["reserved_field"]⟩

/-- C9 witness: an input naming the undefined unreserved field
unknown_field fails, while an entry naming reserved_field is skipped
without error. -/
theorem unknown_field_errors_unless_reserved_witness :
    (∃ e ∈ ([⟨"unknown_field", "123"⟩] : List Entry),
      dNests.lookupF e.name = none ∧ e.name ∉ dNests.reservedNames) ∧
    ((∃ er, decodeEntries dNests emptyState [⟨"unknown_field", "123"⟩] = .error er) ∧
     (∀ (st : MsgState) (e2 : Entry), dNests.lookupF e2.name = none →
        e2.name ∉ dNests.reservedNames → stepEntry dNests st e2 = .error .unknownField) ∧
     (∀ (st : MsgState) (e2 : Entry), dNests.lookupF e2.name = none →
        e2.name ∈ dNests.reservedNames → stepEntry dNests st e2 = .ok st)) := by
  have hbad : ∃ e ∈ ([⟨"unknown_field", "123"⟩] : List Entry),
      dNests.lookupF e.name = none ∧ e.name ∉ dNests.reservedNames := by
    refine ⟨⟨"unknown_field", "123"⟩, by simp, by rfl, by decide⟩
  exact ⟨hbad, unknown_field_errors_unless_reserved dNests _ hbad⟩

/-! ## Claim C8 -/

/-- Modelled from the spec: the entries a text decoder can meet inside an
Any message with a resolver: the expanded bracketed form, or the plain
type_url and value fields (section 4.5, Any expansion). -/
inductive AnyEntry where
  | expanded (url : String) (body : List Entry)
  | typeUrlF (tok : String)
  | valueF (tok : String)
deriving DecidableEq, Repr

def AnyEntry.isExpanded : AnyEntry → Bool
  | .expanded _ _ => true
  | _ => false

structure AnySt where
  exp : Option (String × List Entry)
  turl : Option String
  tval : Option String
deriving DecidableEq, Repr

/-- Modelled from the spec: decoding one Any entry; the decoder accepts the
expanded form or the two-field form, but a mix of both in one message is an
error, and a duplicate of either is a duplicate-field error (section 4.5,
Any expansion; section 4.5, Validation). -/
def stepAny (st : AnySt) (e : AnyEntry) : Except TErr AnySt :=
  match e with
  | .expanded u b =>
    if st.turl.isSome || st.tval.isSome then .error .anyConflict
    else if st.exp.isSome then .error .duplicateField
    else .ok { st with exp := some (u, b) }
  | .typeUrlF tok =>
    if st.exp.isSome then .error .anyConflict
    else if st.turl.isSome then .error .duplicateField
    else .ok { st with turl := some tok }
  | .valueF tok =>
    if st.exp.isSome then .error .anyConflict
    else if st.tval.isSome then .error .duplicateField
    else .ok { st with tval := some tok }

def decodeAnyFrom (st : AnySt) : List AnyEntry → Except TErr AnySt
  | [] => .ok st
  | e :: rest =>
    match stepAny st e with
    | .error er => .error er
    | .ok st2 => decodeAnyFrom st2 rest

def emptyAnySt : AnySt := ⟨none, none, none⟩

def decodeAny (es : List AnyEntry) : Except TErr AnySt :=
  decodeAnyFrom emptyAnySt es

/-- Once the expanded form has been seen, every further entry errors. -/
theorem anyFrom_error_of_exp (st : AnySt) (hst : st.exp.isSome = true) :
    ∀ (es : List AnyEntry), es ≠ [] → ∃ er, decodeAnyFrom st es = .error er := by
  intro es hne
  cases es with
  | nil => exact absurd rfl hne
  | cons e rest =>
    cases e with
    | expanded u b =>
      by_cases hp : (st.turl.isSome || st.tval.isSome) = true
      · have hstep : stepAny st (.expanded u b) = .error .anyConflict := by
          simp [stepAny, hp]
        exact ⟨.anyConflict, by simp [decodeAnyFrom, hstep]⟩
      · have hstep : stepAny st (.expanded u b) = .error .duplicateField := by
          simp [stepAny, hp, hst]
        exact ⟨.duplicateField, by simp [decodeAnyFrom, hstep]⟩
    | typeUrlF tok =>
      have hstep : stepAny st (.typeUrlF tok) = .error .anyConflict := by
        simp [stepAny, hst]
      exact ⟨.anyConflict, by simp [decodeAnyFrom, hstep]⟩
    | valueF tok =>
      have hstep : stepAny st (.valueF tok) = .error .anyConflict := by
        simp [stepAny, hst]
      exact ⟨.anyConflict, by simp [decodeAnyFrom, hstep]⟩

/-- Once a plain field has been seen, a later expanded entry errors. -/
theorem anyFrom_error_of_plain (st : AnySt)
    (hst : st.turl.isSome = true ∨ st.tval.isSome = true) :
    ∀ (es : List AnyEntry), (∃ e ∈ es, e.isExpanded = true) →
      ∃ er, decodeAnyFrom st es = .error er := by
  intro es
  induction es generalizing st with
  | nil =>
    intro h
    rcases h with ⟨e, he, _⟩
    simp at he
  | cons e rest ih =>
    intro h
    cases e with
    | expanded u b =>
      have hor : (st.turl.isSome || st.tval.isSome) = true := by
        rcases hst with h1 | h1 <;> simp [h1]
      have hstep : stepAny st (.expanded u b) = .error .anyConflict := by
        simp [stepAny, hor]
      exact ⟨.anyConflict, by simp [decodeAnyFrom, hstep]⟩
    | typeUrlF tok =>
      rcases h with ⟨x, hx, hexp⟩
      rcases List.mem_cons.mp hx with rfl | hmem
      · simp [AnyEntry.isExpanded] at hexp
      · by_cases hc : st.exp.isSome = true
        · have hstep : stepAny st (.typeUrlF tok) = .error .anyConflict := by
            simp [stepAny, hc]
          exact ⟨.anyConflict, by simp [decodeAnyFrom, hstep]⟩
        · by_cases hdup : st.turl.isSome = true
          · have hstep : stepAny st (.typeUrlF tok) = .error .duplicateField := by
              simp [stepAny, hc, hdup]
            exact ⟨.duplicateField, by simp [decodeAnyFrom, hstep]⟩
          · have hstep : stepAny st (.typeUrlF tok) = .ok { st with turl := some tok } := by
              simp [stepAny, hc, hdup]
            rcases ih { st with turl := some tok } (Or.inl (by simp)) ⟨x, hmem, hexp⟩
              with ⟨er, her⟩
            exact ⟨er, by simp only [decodeAnyFrom, hstep]; exact her⟩
    | valueF tok =>
      rcases h with ⟨x, hx, hexp⟩
      rcases List.mem_cons.mp hx with rfl | hmem
      · simp [AnyEntry.isExpanded] at hexp
      · by_cases hc : st.exp.isSome = true
        · have hstep : stepAny st (.valueF tok) = .error .anyConflict := by
            simp [stepAny, hc]
          exact ⟨.anyConflict, by simp [decodeAnyFrom, hstep]⟩
        · by_cases hdup : st.tval.isSome = true
          · have hstep : stepAny st (.valueF tok) = .error .duplicateField := by
              simp [stepAny, hc, hdup]
            exact ⟨.duplicateField, by simp [decodeAnyFrom, hstep]⟩
          · have hstep : stepAny st (.valueF tok) = .ok { st with tval := some tok } := by
              simp [stepAny, hc, hdup]
            rcases ih { st with tval := some tok } (Or.inr (by simp)) ⟨x, hmem, hexp⟩
              with ⟨er, her⟩
            exact ⟨er, by simp only [decodeAnyFrom, hstep]; exact her⟩

/-- C8: the Any text decoder accepts the expanded bracketed form alone and
the two-field type_url/value form alone, but rejects with an error every
input mixing both forms in one message. -/
theorem any_mixed_forms_rejected (es : List AnyEntry)
    (hx : ∃ e ∈ es, e.isExpanded = true)
    (hp : ∃ e ∈ es, e.isExpanded = false) :
    (∃ er, decodeAny es = .error er) ∧
    (∀ url body, decodeAny [.expanded url body] = .ok ⟨some (url, body), none, none⟩) ∧
    (∀ u v, decodeAny [.typeUrlF u, .valueF v] = .ok ⟨none, some u, some v⟩) := by
  refine ⟨?_, fun url body => rfl, fun u v => rfl⟩
  cases es with
  | nil =>
    rcases hx with ⟨e, he, _⟩
    simp at he
  | cons e rest =>
    cases e with
    | expanded u b =>
      have hstep : stepAny emptyAnySt (.expanded u b)
          = .ok ⟨some (u, b), none, none⟩ := by rfl
      have hne : rest ≠ [] := by
        rcases hp with ⟨x, hx2, hpe⟩
        rcases List.mem_cons.mp hx2 with rfl | hmem
        · simp [AnyEntry.isExpanded] at hpe
        · exact List.ne_nil_of_mem hmem
      rcases anyFrom_error_of_exp ⟨some (u, b), none, none⟩ (by rfl) rest hne
        with ⟨er, her⟩
      exact ⟨er, by simp only [decodeAny, decodeAnyFrom, hstep]; exact her⟩
    | typeUrlF tok =>
      have hstep : stepAny emptyAnySt (.typeUrlF tok)
          = .ok ⟨none, some tok, none⟩ := by rfl
      have hxr : ∃ x ∈ rest, x.isExpanded = true := by
        rcases hx with ⟨x, hx2, hxe⟩
        rcases List.mem_cons.mp hx2 with rfl | hmem
        · simp [AnyEntry.isExpanded] at hxe
        · exact ⟨x, hmem, hxe⟩
      rcases anyFrom_error_of_plain ⟨none, some tok, none⟩ (Or.inl (by rfl)) rest hxr
        with ⟨er, her⟩
      exact ⟨er, by simp only [decodeAny, decodeAnyFrom, hstep]; exact her⟩
    | valueF tok =>
      have hstep : stepAny emptyAnySt (.valueF tok)
          = .ok ⟨none, none, some tok⟩ := by rfl
      have hxr : ∃ x ∈ rest, x.isExpanded = true := by
        rcases hx with ⟨x, hx2, hxe⟩
        rcases List.mem_cons.mp hx2 with rfl | hmem
        · simp [AnyEntry.isExpanded] at hxe
        · exact ⟨x, hmem, hxe⟩
      rcases anyFrom_error_of_plain ⟨none, none, some tok⟩ (Or.inr (by rfl)) rest hxr
        with ⟨er, her⟩
      exact ⟨er, by simp only [decodeAny, decodeAnyFrom, hstep]; exact her⟩

/-- C8 witness: the tests' mixed input (an expanded pb2.Nested entry
followed by a type_url field) is rejected, while each pure form alone is
accepted. -/
theorem any_mixed_forms_rejected_witness :
    (∃ e ∈ [AnyEntry.expanded "pb2.Nested" [], AnyEntry.typeUrlF "\"pb2.Nested\""],
      e.isExpanded = true) ∧
    (∃ e ∈ [AnyEntry.expanded "pb2.Nested" [], AnyEntry.typeUrlF "\"pb2.Nested\""],
      e.isExpanded = false) ∧
    ((∃ er, decodeAny [AnyEntry.expanded "pb2.Nested" [],
        AnyEntry.typeUrlF "\"pb2.Nested\""] = .error er) ∧
     (∀ url body, decodeAny [.expanded url body] = .ok ⟨some (url, body), none, none⟩) ∧
     (∀ u v, decodeAny [.typeUrlF u, .valueF v] = .ok ⟨none, some u, some v⟩)) := by
  have hx : ∃ e ∈ [AnyEntry.expanded "pb2.Nested" [], AnyEntry.typeUrlF "\"pb2.Nested\""],
      e.isExpanded = true := ⟨.expanded "pb2.Nested" [], by simp, rfl⟩
  have hp : ∃ e ∈ [AnyEntry.expanded "pb2.Nested" [], AnyEntry.typeUrlF "\"pb2.Nested\""],
      e.isExpanded = false := ⟨.typeUrlF "\"pb2.Nested\"", by simp, rfl⟩
  exact ⟨hx, hp, any_mixed_forms_rejected _ hx hp⟩

/-! ## Claim C4 -/

/-- Modelled from the spec: writing one decoded map entry into the map in
stream order; a later entry with the same key overrides the earlier one
(section 4.3, Map field; section 5, ordering guarantees). -/
def mapInsert {K V : Type} [DecidableEq K] (k : K) (v : V) :
    List (K × V) → List (K × V)
  | [] => [(k, v)]
  | (k2, v2) :: rest =>
    if k2 = k then (k, v) :: rest else (k2, v2) :: mapInsert k v rest

/-- Modelled from the spec: decoding the entries of a map field: each entry
carries an optional key and optional value, a missing part defaults to the
kind's zero, and entries apply in stream order with last write winning
(section 4.3, Map field). -/
def applyMapEntries {K V : Type} [DecidableEq K] (kz : K) (vz : V)
    (es : List (Option K × Option V)) : List (K × V) :=
  es.foldl (fun m e => mapInsert (e.1.getD kz) (e.2.getD vz) m) []

def lookupKey {K V : Type} [DecidableEq K] (n : K) : List (K × V) → Option V
  | [] => none
  | (k2, v) :: rest => if k2 = n then some v else lookupKey n rest

/-- The value of the last entry of the list written for the key, if any. -/
def lastValueFor {K V : Type} [DecidableEq K] (n : K) : List (K × V) → Option V
  | [] => none
  | (k2, v) :: rest =>
    match lastValueFor n rest with
    | some w => some w
    | none => if k2 = n then some v else none

theorem lookupKey_mapInsert {K V : Type} [DecidableEq K] (k n : K) (v : V)
    (m : List (K × V)) :
    lookupKey n (mapInsert k v m) = if k = n then some v else lookupKey n m := by
  induction m with
  | nil => simp [mapInsert, lookupKey]
  | cons p m ih =>
    by_cases h1 : p.1 = k
    · simp only [mapInsert, h1, if_true]
      by_cases h2 : k = n
      · simp [lookupKey, h2]
      · simp [lookupKey, h2]
        rw [if_neg (by rw [h1]; exact h2)]
    · simp only [mapInsert, h1, if_false]
      by_cases h2 : p.1 = n
      · have : ¬ k = n := fun hc => h1 (by rw [hc, h2])
        simp [lookupKey, h2, this]
      · simp [lookupKey, h2, ih]

theorem mem_keys_mapInsert {K V : Type} [DecidableEq K] (k x : K) (v : V)
    (m : List (K × V)) :
    x ∈ (mapInsert k v m).map Prod.fst ↔ x = k ∨ x ∈ m.map Prod.fst := by
  induction m with
  | nil => simp [mapInsert]
  | cons p m ih =>
    by_cases h1 : p.1 = k
    · simp only [mapInsert, h1, if_true]
      simp [h1]
      try tauto
    · simp only [mapInsert, h1, if_false]
      simp [ih]
      try tauto

theorem nodup_keys_mapInsert {K V : Type} [DecidableEq K] (k : K) (v : V)
    (m : List (K × V)) (h : (m.map Prod.fst).Nodup) :
    ((mapInsert k v m).map Prod.fst).Nodup := by
  induction m with
  | nil => simp [mapInsert]
  | cons p m ih =>
    simp only [List.map_cons, List.nodup_cons] at h
    by_cases h1 : p.1 = k
    · simp only [mapInsert, h1, if_true, List.map_cons, List.nodup_cons]
      rw [h1] at h
      exact h
    · simp only [mapInsert, h1, if_false, List.map_cons, List.nodup_cons]
      refine ⟨?_, ih h.2⟩
      rw [mem_keys_mapInsert]
      rintro (hc | hc)
      · exact h1 hc
      · exact h.1 hc

theorem lookupKey_insert_fold {K V : Type} [DecidableEq K]
    (ps : List (K × V)) (n : K) :
    ∀ m : List (K × V),
      lookupKey n (ps.foldl (fun m p => mapInsert p.1 p.2 m) m)
        = match lastValueFor n ps with
          | some w => some w
          | none => lookupKey n m := by
  induction ps with
  | nil => intro m; simp [lastValueFor]
  | cons p ps ih =>
    intro m
    rw [List.foldl_cons, ih (mapInsert p.1 p.2 m)]
    rw [lookupKey_mapInsert p.1 n p.2 m]
    cases hl : lastValueFor n ps with
    | some w => simp [lastValueFor, hl]
    | none =>
      by_cases h2 : p.1 = n <;> simp [lastValueFor, hl, h2]

theorem nodup_keys_insert_fold {K V : Type} [DecidableEq K]
    (ps : List (K × V)) :
    ∀ m : List (K × V), (m.map Prod.fst).Nodup →
      ((ps.foldl (fun m p => mapInsert p.1 p.2 m) m).map Prod.fst).Nodup := by
  induction ps with
  | nil => intro m h; simpa using h
  | cons p ps ih =>
    intro m h
    rw [List.foldl_cons]
    exact ih (mapInsert p.1 p.2 m) (nodup_keys_mapInsert p.1 p.2 m h)

/-- C4: decoding the entries of a map field deduplicates by key with last
write winning: the resulting map has no duplicate keys, and each key maps
to the value of the last entry (after key/value defaulting) that wrote
it. -/
theorem map_decode_last_write_wins {K V : Type} [DecidableEq K] (kz : K) (vz : V)
    (es : List (Option K × Option V)) :
    (((applyMapEntries kz vz es).map Prod.fst).Nodup) ∧
    (∀ n : K, lookupKey n (applyMapEntries kz vz es)
        = lastValueFor n (es.map fun e => (e.1.getD kz, e.2.getD vz))) := by
  have hfold : applyMapEntries kz vz es
      = (es.map fun e => (e.1.getD kz, e.2.getD vz)).foldl
          (fun m p => mapInsert p.1 p.2 m) [] := by
    unfold applyMapEntries
    rw [List.foldl_map]
  constructor
  · rw [hfold]
    exact nodup_keys_insert_fold _ [] (by simp)
  · intro n
    rw [hfold, lookupKey_insert_fold _ n []]
    cases hl : lastValueFor n (es.map fun e => (e.1.getD kz, e.2.getD vz)) <;>
      simp [lookupKey]


/-- C4 witness: the tests' duplicate-key input (key 0 mapping first to
cero, then to zero) decodes to a single-entry map holding the last-written
value. -/
theorem map_decode_last_write_wins_witness :
    ((applyMapEntries (0 : Nat) "" [(some 0, some "cero"), (some 0, some "zero")]).map
        Prod.fst).Nodup ∧
    lookupKey 0 (applyMapEntries (0 : Nat) "" [(some 0, some "cero"), (some 0, some "zero")])
      = some "zero" := by
  have h := map_decode_last_write_wins (0 : Nat) ""
    [(some 0, some "cero"), (some 0, some "zero")]
  refine ⟨h.1, ?_⟩
  rw [h.2 0]
  rfl

/-! ## Claim C10 -/

/-- Modelled from the spec: printing one element of a repeated message or
group field, or one map value of message type, as a message literal
(section 4.5, Printing).  The spec is silent about nil sub-message
references; the repository's tests fix that a nil element prints exactly as
an empty message, which the model renders by defaulting a missing message
to the empty field list. -/
def printMsgElem (o : Option (List TField)) : String :=
  "\x7b" ++ printTFields (o.getD []) ++ "\x7d"

/-- Modelled from the spec: printing a repeated message or group field, one
labelled message literal per element (section 4.5). -/
def printRepeatedMsgField (label : String) : List (Option (List TField)) → String
  | [] => ""
  | o :: rest => label ++ ": " ++ printMsgElem o ++ "\n" ++ printRepeatedMsgField label rest

/-- Modelled from the spec: printing a map field with message values, one
key/value entry per element (section 4.3, Map field; section 4.5). -/
def printMapMsgField (label : String) : List (String × Option (List TField)) → String
  | [] => ""
  | (k, o) :: rest =>
    label ++ ": \x7b key: " ++ k ++ " value: " ++ printMsgElem o ++ " \x7d\n" ++
      printMapMsgField label rest

/-- C10: text marshal treats a nil element of a repeated message or group
field and a nil map value of message type like an empty message: the output
equals the output with every nil replaced by the empty message, a nil
element prints as an empty message literal, and the tests' nil-containing
repeated field prints one empty literal per element. -/
theorem nil_submessage_prints_as_empty (label : String)
    (elems : List (Option (List TField)))
    (mp : List (String × Option (List TField))) :
    printRepeatedMsgField label elems
      = printRepeatedMsgField label (elems.map fun o => some (o.getD [])) ∧
    printMapMsgField label mp
      = printMapMsgField label (mp.map fun kv => (kv.1, some (kv.2.getD []))) ∧
    printMsgElem none = "\x7b\x7d" ∧
    printRepeatedMsgField "rpt_nested" [none, some []]
      = "rpt_nested: \x7b\x7d\nrpt_nested: \x7b\x7d\n" := by
  refine ⟨?_, ?_, rfl, rfl⟩
  · induction elems with
    | nil => rfl
    | cons o rest ih =>
      simp only [printRepeatedMsgField, List.map_cons, ih]
      rfl
  · induction mp with
    | nil => rfl
    | cons kv rest ih =>
      simp only [printMapMsgField, List.map_cons, ih]
      rfl

end Proto
